import Mathlib

/-!
Verification of the document-indexing pipeline (`index_documents.py`).

Strings are modelled as `List Char`.  The Python pieces embedded here:
`normalize_whitespace` (built on `str.split()` and `" ".join`), the chunker
`split_fixed_overlap` (built on slicing `text[a:b]`, `str.strip()` and
`range(0, n, step)`), the extension dispatch of `load_text`, and the
length-checked batch insert `insert_chunks`.  External effects (PDF/DOCX
parsing, the embedding service, the database) are abstracted as parameters;
the database is a `Store` value threaded explicitly.
-/

deriving instance DecidableEq for Except

namespace IndexDocs

/-- The whitespace characters recognised by Python's `str.split()` /
`str.strip()` (ASCII part, which is all the claims rely on). -/
def isPySpace (c : Char) : Bool :=
  c = ' ' || c = '\t' || c = '\n' || c = '\r' || c = '\x0b' || c = '\x0c'

/-- Worker for Python `text.split()` with no separator: `acc` is the current
word, reversed; whitespace runs end words, and empty words are never kept. -/
def splitWsGo : List Char → List Char → List (List Char)
  | [], acc => if acc = [] then [] else [acc.reverse]
  | c :: cs, acc =>
    if isPySpace c then
      if acc = [] then splitWsGo cs [] else acc.reverse :: splitWsGo cs []
    else
      splitWsGo cs (c :: acc)

/-- Python `text.split()`: the maximal whitespace-free runs of `text`. -/
def pySplitWs (s : List Char) : List (List Char) := splitWsGo s []

/-- Python `" ".join(words)`. -/
def joinWords : List (List Char) → List Char
  | [] => []
  | [w] => w
  | w :: ws => w ++ ' ' :: joinWords ws

/-- `normalize_whitespace(text) = " ".join(text.split())`. -/
def normalize_whitespace (text : List Char) : List Char :=
  joinWords (pySplitWs text)

/-- Python `s.strip()`: drop whitespace from both ends. -/
def pyStrip (l : List Char) : List Char :=
  ((l.dropWhile isPySpace).reverse.dropWhile isPySpace).reverse

/-- Python slice `s[a:b]` (step 1), including the wrapping of negative
indices. -/
def pySlice (s : List Char) (a b : Int) : List Char :=
  let n : Int := s.length
  let lo : Nat := (if a < 0 then max (n + a) 0 else min a n).toNat
  let hi : Nat := (if b < 0 then max (n + b) 0 else min b n).toNat
  (s.take hi).drop lo

/-- Python `range(0, n, step)` for positive `step`: CPython materialises
`ceil(n / step)` elements, the `k`-th being `k * step`. -/
def rangeStep (n step : Nat) : List Nat :=
  (List.range ((n + step - 1) / step)).map (fun k => k * step)

def invalidConfigMsg : String := "CHUNK_OVERLAP must be smaller than CHUNK_SIZE"

/-- `split_fixed_overlap(text, chunk_size, overlap)`: validate
`overlap < chunk_size`, normalize, return `[]` on empty text, else collect
`text[start:start+chunk_size].strip()` for `start in range(0, len(text), step)`
with `step = chunk_size - overlap`, keeping only non-empty chunks. -/
def split_fixed_overlap (text : List Char) (chunk_size overlap : Int) :
    Except String (List (List Char)) :=
  if overlap ≥ chunk_size then .error invalidConfigMsg
  else
    let t := normalize_whitespace text
    if t = [] then .ok []
    else
      let step : Nat := (chunk_size - overlap).toNat
      .ok (((rangeStep t.length step).map
        (fun st : Nat => pyStrip (pySlice t st (st + chunk_size)))).filter
          (fun c => !c.isEmpty))

/-- Module constant `SPLIT_STRATEGY`. -/
def SPLIT_STRATEGY : List Char := "fixed_overlap".data

/-- Module constant `CHUNK_SIZE`. -/
def CHUNK_SIZE : Int := 1000

/-- Module constant `CHUNK_OVERLAP`. -/
def CHUNK_OVERLAP : Int := 200

/-- The spec's enumeration of starting offsets, written as the spec words it:
"starting offsets are `0, step, 2*step, …` while the offset is less than the
text length".  The step is `stepPred + 1`, keeping it positive so the loop
terminates. -/
def offsetsWhile (len stepPred off : Nat) : List Nat :=
  if off < len then off :: offsetsWhile len stepPred (off + stepPred + 1) else []
termination_by len - off
decreasing_by omega

/-- `split_fixed_overlap` as the spec's sentence describes it: first normalize,
set `step = S - O`, walk the offsets `0, step, 2*step, …` strictly below the
normalized length, take the substring of up to `S` characters at each offset,
trim it, and drop it if it trims to empty. -/
def split_fixed_overlap_spec (text : List Char) (S O : Int) :
    Except String (List (List Char)) :=
  if O < S then
    let t := normalize_whitespace text
    let step : Nat := (S - O).toNat
    .ok (((offsetsWhile t.length (step - 1) 0).map
      (fun st => pyStrip ((t.drop st).take S.toNat))).filter (fun c => !c.isEmpty))
  else .error invalidConfigMsg

/-- Python `path.lower()` (ASCII case folding, which is what the recognised
extensions exercise). -/
def pyLower (s : List Char) : List Char := s.map Char.toLower

def unsupportedMsg : String := "Unsupported file type. Please provide a PDF or DOCX file."

/-- `load_text(path)`: dispatch on the lower-cased path's extension.  The two
format readers are external-library delegations, so their results are the
parameters `pdfText` and `docxText`. -/
def load_text (path pdfText docxText : List Char) : Except String (List Char) :=
  let p := pyLower path
  if (".pdf".data).isSuffixOf p then .ok pdfText
  else if (".docx".data).isSuffixOf p then .ok docxText
  else .error unsupportedMsg

/-- `os.path.basename` for POSIX paths: the part after the last slash. -/
def basename (p : List Char) : List Char :=
  (p.reverse.takeWhile (fun c => c ≠ '/')).reverse

/-- One row of the `document_chunks` table; `α` is the embedding-vector type,
opaque to the insertion logic. -/
structure DbRow (α : Type) where
  id : Nat
  chunk_text : List Char
  embedding : α
  filename : List Char
  split_strategy : List Char
  created_at : Nat
deriving DecidableEq

/-- The database as seen by this program: its rows, plus a counter of how many
connections have been opened against it. -/
structure Store (α : Type) where
  rows : List (DbRow α)
  connections : Nat
deriving DecidableEq

def lengthMismatchMsg : String := "Chunks and embeddings length mismatch."

/-- `insert_chunks(filename, chunks, embeddings)`: length check first; only
then is a connection opened and one row per (chunk, embedding) pair appended in
a single batch.  `mkId i` models `uuid4()` for the `i`-th row and `now` the
timestamp captured once per call.  Returns the store after the call and the
error raised, if any. -/
def insert_chunks {α : Type} (filename : List Char) (chunks : List (List Char))
    (embeddings : List α) (mkId : Nat → Nat) (now : Nat) (st : Store α) :
    Store α × Option String :=
  if chunks.length ≠ embeddings.length then (st, some lengthMismatchMsg)
  else
    let rows := (chunks.zip embeddings).enum.map
      (fun p => DbRow.mk (mkId p.1) p.2.1 p.2.2 filename SPLIT_STRATEGY now)
    (⟨st.rows ++ rows, st.connections + 1⟩, none)

/-- Pipeline stages that perform work after text extraction. -/
inductive Ev
  | chunk
  | embed
  | persist
deriving DecidableEq

def missingKeyMsg : String := "Missing GEMINI_API_KEY env var. Set it before running."

/-- The `main` pipeline: load text (extraction abstracted as `pdfText` /
`docxText`), short-circuit on empty text, chunk with the default parameters,
embed each chunk in order (`embedder` models the remote service), insert.
Returns the trace of stages that ran, the final store, and the error, if
any. -/
def main_model (path pdfText docxText : List Char) (apiKey : Bool)
    (embedder : List Char → List Int) (mkId : Nat → Nat) (now : Nat)
    (st : Store (List Int)) : List Ev × Store (List Int) × Option String :=
  match load_text path pdfText docxText with
  | .error e => ([], st, some e)
  | .ok text =>
    if text = [] then ([], st, none)
    else
      match split_fixed_overlap text CHUNK_SIZE CHUNK_OVERLAP with
      | .error e => ([], st, some e)
      | .ok chunks =>
        if !apiKey then ([Ev.chunk], st, some missingKeyMsg)
        else
          let embeddings := chunks.map embedder
          let (st2, err) := insert_chunks (basename path) chunks embeddings mkId now st
          ([Ev.chunk, Ev.embed, Ev.persist], st2, err)

/-! ### Lemmas about `pySplitWs`, `joinWords` and `normalize_whitespace` -/

lemma splitWsGo_word {w : List Char} (hw : ∀ c ∈ w, isPySpace c = false) :
    ∀ (s acc : List Char), splitWsGo (w ++ s) acc = splitWsGo s (w.reverse ++ acc) := by
  induction w with
  | nil => intro s acc; simp
  | cons c cs ih =>
    intro s acc
    have hc : isPySpace c = false := hw c (by simp)
    have hcs : ∀ x ∈ cs, isPySpace x = false := fun x hx => hw x (by simp [hx])
    simp [splitWsGo, hc, ih hcs]

lemma splitWsGo_words : ∀ (s acc : List Char), (∀ c ∈ acc, isPySpace c = false) →
    ∀ w ∈ splitWsGo s acc, w ≠ [] ∧ ∀ c ∈ w, isPySpace c = false := by
  intro s
  induction s with
  | nil =>
    intro acc hacc w hw
    by_cases h : acc = []
    · simp [splitWsGo, h] at hw
    · simp [splitWsGo, h] at hw
      subst hw
      exact ⟨by simpa using h, fun c hc => hacc c (List.mem_reverse.mp hc)⟩
  | cons c cs ih =>
    intro acc hacc w hw
    by_cases hc : isPySpace c = true
    · rw [show splitWsGo (c :: cs) acc =
          (if acc = [] then splitWsGo cs [] else acc.reverse :: splitWsGo cs []) by
        simp [splitWsGo, hc]] at hw
      by_cases h : acc = []
      · rw [if_pos h] at hw
        exact ih [] (by simp) w hw
      · rw [if_neg h] at hw
        rcases List.mem_cons.mp hw with rfl | hw'
        · exact ⟨by simpa using h, fun x hx => hacc x (List.mem_reverse.mp hx)⟩
        · exact ih [] (by simp) w hw'
    · rw [show splitWsGo (c :: cs) acc = splitWsGo cs (c :: acc) by
        simp [splitWsGo, hc]] at hw
      refine ih (c :: acc) ?_ w hw
      intro x hx
      rcases List.mem_cons.mp hx with rfl | hx'
      · simpa using hc
      · exact hacc x hx'

lemma pySplitWs_words {s : List Char} :
    ∀ w ∈ pySplitWs s, w ≠ [] ∧ ∀ c ∈ w, isPySpace c = false :=
  splitWsGo_words s [] (by simp)

lemma splitWsGo_eq_nil : ∀ (s acc : List Char), splitWsGo s acc = [] →
    acc = [] ∧ ∀ c ∈ s, isPySpace c = true := by
  intro s
  induction s with
  | nil =>
    intro acc h
    by_cases hacc : acc = []
    · exact ⟨hacc, by simp⟩
    · simp [splitWsGo, hacc] at h
  | cons c cs ih =>
    intro acc h
    by_cases hc : isPySpace c = true
    · by_cases hacc : acc = []
      · have h' : splitWsGo cs [] = [] := by simpa [splitWsGo, hc, hacc] using h
        exact ⟨hacc, by simpa [hc] using (ih [] h').2⟩
      · simp [splitWsGo, hc, hacc] at h
    · have h' : splitWsGo cs (c :: acc) = [] := by simpa [splitWsGo, hc] using h
      have := (ih (c :: acc) h').1
      simp at this

lemma splitWsGo_all_space : ∀ (s : List Char), (∀ c ∈ s, isPySpace c = true) →
    splitWsGo s [] = [] := by
  intro s
  induction s with
  | nil => intro _; simp [splitWsGo]
  | cons c cs ih =>
    intro h
    have hc : isPySpace c = true := h c (by simp)
    simpa [splitWsGo, hc] using ih fun x hx => h x (by simp [hx])

lemma pySplitWs_eq_nil_iff {s : List Char} :
    pySplitWs s = [] ↔ ∀ c ∈ s, isPySpace c = true :=
  ⟨fun h => (splitWsGo_eq_nil s [] h).2, splitWsGo_all_space s⟩

lemma joinWords_cons₂ (w x : List Char) (xs : List (List Char)) :
    joinWords (w :: x :: xs) = w ++ ' ' :: joinWords (x :: xs) := rfl

lemma joinWords_ne_nil : ∀ {ws : List (List Char)}, ws ≠ [] → (∀ w ∈ ws, w ≠ []) →
    joinWords ws ≠ []
  | [], h, _ => absurd rfl h
  | [w], _, h1 => by simpa [joinWords] using h1 w (by simp)
  | w :: x :: xs, _, _ => by simp [joinWords_cons₂]

lemma pySplitWs_joinWords : ∀ (ws : List (List Char)),
    (∀ w ∈ ws, w ≠ [] ∧ ∀ c ∈ w, isPySpace c = false) →
    pySplitWs (joinWords ws) = ws := by
  intro ws
  induction ws with
  | nil => intro _; simp [joinWords, pySplitWs, splitWsGo]
  | cons w tail ih =>
    intro h
    have hw : w ≠ [] ∧ ∀ c ∈ w, isPySpace c = false := h w (by simp)
    cases tail with
    | nil =>
      show pySplitWs w = [w]
      have : splitWsGo (w ++ []) [] = splitWsGo [] (w.reverse ++ []) :=
        splitWsGo_word hw.2 [] []
      rw [List.append_nil] at this
      unfold pySplitWs
      rw [this]
      have hne : w.reverse ++ [] ≠ [] := by simp [hw.1]
      simp only [splitWsGo, if_neg hne]
      simp
    | cons x xs =>
      have htail : ∀ v ∈ x :: xs, v ≠ [] ∧ ∀ c ∈ v, isPySpace c = false :=
        fun v hv => h v (by simp [hv])
      show pySplitWs (w ++ ' ' :: joinWords (x :: xs)) = w :: x :: xs
      unfold pySplitWs
      rw [splitWsGo_word hw.2]
      have hne : w.reverse ++ [] ≠ [] := by simp [hw.1]
      rw [show splitWsGo (' ' :: joinWords (x :: xs)) (w.reverse ++ []) =
          (w.reverse ++ []).reverse :: splitWsGo (joinWords (x :: xs)) [] by
        simp [splitWsGo, isPySpace, hw.1]]
      rw [show splitWsGo (joinWords (x :: xs)) [] = pySplitWs (joinWords (x :: xs)) from rfl,
        ih htail]
      simp

lemma pySplitWs_normalize (t : List Char) :
    pySplitWs (normalize_whitespace t) = pySplitWs t :=
  pySplitWs_joinWords (pySplitWs t) pySplitWs_words

lemma normalize_whitespace_idem (t : List Char) :
    normalize_whitespace (normalize_whitespace t) = normalize_whitespace t := by
  show joinWords (pySplitWs (normalize_whitespace t)) = normalize_whitespace t
  rw [pySplitWs_normalize]
  rfl

lemma normalize_eq_nil_iff {t : List Char} :
    normalize_whitespace t = [] ↔ ∀ c ∈ t, isPySpace c = true := by
  constructor
  · intro h
    by_cases hs : pySplitWs t = []
    · exact pySplitWs_eq_nil_iff.mp hs
    · exact absurd h (joinWords_ne_nil hs fun w hw => (pySplitWs_words w hw).1)
  · intro h
    show joinWords (pySplitWs t) = []
    rw [pySplitWs_eq_nil_iff.mpr h]
    rfl

lemma mem_joinWords {c : Char} : ∀ {ws : List (List Char)}, c ∈ joinWords ws →
    (∃ w ∈ ws, c ∈ w) ∨ c = ' ' := by
  intro ws
  induction ws with
  | nil => intro h; simp [joinWords] at h
  | cons w tail ih =>
    cases tail with
    | nil =>
      intro h
      exact Or.inl ⟨w, by simp, by simpa [joinWords] using h⟩
    | cons x xs =>
      intro h
      rw [joinWords_cons₂] at h
      rcases List.mem_append.mp h with h' | h'
      · exact Or.inl ⟨w, by simp, h'⟩
      · rcases List.mem_cons.mp h' with rfl | h''
        · exact Or.inr rfl
        · rcases ih h'' with ⟨v, hv, hcv⟩ | h3
          · exact Or.inl ⟨v, by simp [hv], hcv⟩
          · exact Or.inr h3

lemma joinWords_head?_not_space {ws : List (List Char)}
    (h : ∀ w ∈ ws, w ≠ [] ∧ ∀ c ∈ w, isPySpace c = false) :
    ∀ c, (joinWords ws).head? = some c → isPySpace c = false := by
  intro c hc
  cases ws with
  | nil => simp [joinWords] at hc
  | cons w tail =>
    have hw := h w (by simp)
    have hhead : (joinWords (w :: tail)).head? = w.head? := by
      cases tail with
      | nil => rfl
      | cons x xs =>
        rw [joinWords_cons₂]
        cases w with
        | nil => exact absurd rfl hw.1
        | cons a t => rfl
    rw [hhead] at hc
    exact hw.2 c (List.mem_of_mem_head? hc)

lemma joinWords_getLast?_not_space : ∀ {ws : List (List Char)},
    (∀ w ∈ ws, w ≠ [] ∧ ∀ c ∈ w, isPySpace c = false) →
    ∀ c, (joinWords ws).getLast? = some c → isPySpace c = false := by
  intro ws
  induction ws with
  | nil => intro _ c hc; simp [joinWords] at hc
  | cons w tail ih =>
    intro h c hc
    cases tail with
    | nil =>
      have hw := h w (by simp)
      exact hw.2 c (List.mem_of_getLast?_eq_some (by simpa [joinWords] using hc))
    | cons x xs =>
      have htail : ∀ v ∈ x :: xs, v ≠ [] ∧ ∀ c ∈ v, isPySpace c = false :=
        fun v hv => h v (by simp [hv])
      have hne : joinWords (x :: xs) ≠ [] :=
        joinWords_ne_nil (by simp) fun v hv => (htail v hv).1
      obtain ⟨j, js, hJ⟩ := List.exists_cons_of_ne_nil hne
      rw [joinWords_cons₂, List.getLast?_append, hJ, List.getLast?_cons_cons, ← hJ] at hc
      rcases Option.or_eq_some.mp hc with h1 | ⟨h1, _⟩
      · exact ih htail c h1
      · exact absurd h1 (by simpa [List.getLast?_eq_none_iff] using hne)

lemma chain'_of_all_not_space {l : List Char} (h : ∀ c ∈ l, isPySpace c = false) :
    l.Chain' (fun a b => isPySpace a = false ∨ isPySpace b = false) := by
  induction l with
  | nil => simp
  | cons a t ih =>
    cases t with
    | nil => simp
    | cons b t' =>
      rw [List.chain'_cons]
      exact ⟨Or.inl (h a (by simp)), ih fun c hc => h c (by simp [hc])⟩

lemma chain'_joinWords : ∀ {ws : List (List Char)},
    (∀ w ∈ ws, w ≠ [] ∧ ∀ c ∈ w, isPySpace c = false) →
    (joinWords ws).Chain' (fun a b => isPySpace a = false ∨ isPySpace b = false) := by
  intro ws
  induction ws with
  | nil => intro _; simp [joinWords]
  | cons w tail ih =>
    intro h
    have hw := h w (by simp)
    cases tail with
    | nil => exact chain'_of_all_not_space hw.2
    | cons x xs =>
      have htail : ∀ v ∈ x :: xs, v ≠ [] ∧ ∀ c ∈ v, isPySpace c = false :=
        fun v hv => h v (by simp [hv])
      rw [joinWords_cons₂, List.chain'_append]
      refine ⟨chain'_of_all_not_space hw.2, ?_, ?_⟩
      · rw [List.chain'_cons']
        refine ⟨fun y hy => ?_, ih htail⟩
        exact Or.inr (joinWords_head?_not_space htail y hy)
      · intro a ha b hb
        exact Or.inl (hw.2 a (List.mem_of_getLast?_eq_some ha))

/-! ### Lemmas about `pyStrip` -/

lemma dropWhile_eq_self_of_head? {l : List Char}
    (h : ∀ c, l.head? = some c → isPySpace c = false) :
    l.dropWhile isPySpace = l := by
  cases l with
  | nil => rfl
  | cons a t => simp [List.dropWhile_cons, h a rfl]

lemma pyStrip_eq_self_of {l : List Char}
    (h1 : ∀ c, l.head? = some c → isPySpace c = false)
    (h2 : ∀ c, l.getLast? = some c → isPySpace c = false) :
    pyStrip l = l := by
  unfold pyStrip
  rw [dropWhile_eq_self_of_head? h1,
    dropWhile_eq_self_of_head? (by
      intro c hc
      rw [List.head?_reverse] at hc
      exact h2 c hc),
    List.reverse_reverse]

lemma pyStrip_eq_nil_iff {l : List Char} :
    pyStrip l = [] ↔ ∀ c ∈ l, isPySpace c = true := by
  unfold pyStrip
  rw [List.reverse_eq_nil_iff, List.dropWhile_eq_nil_iff]
  constructor
  · intro h c hc
    have hsplit := List.takeWhile_append_dropWhile isPySpace l
    rcases List.mem_append.mp (by rw [hsplit]; exact hc) with h' | h'
    · exact List.mem_takeWhile_imp h'
    · exact h c (List.mem_reverse.mpr h')
  · intro h c hc
    have : c ∈ l.dropWhile isPySpace := List.mem_reverse.mp hc
    exact h c ((List.dropWhile_suffix isPySpace).subset this)

lemma pyStrip_length_le (l : List Char) : (pyStrip l).length ≤ l.length := by
  unfold pyStrip
  have h1 : ∀ (m : List Char), (m.dropWhile isPySpace).length ≤ m.length := by
    intro m
    exact (List.dropWhile_suffix isPySpace).sublist.length_le
  calc ((l.dropWhile isPySpace).reverse.dropWhile isPySpace).reverse.length
      = ((l.dropWhile isPySpace).reverse.dropWhile isPySpace).length := by
        rw [List.length_reverse]
    _ ≤ (l.dropWhile isPySpace).reverse.length := h1 _
    _ = (l.dropWhile isPySpace).length := by rw [List.length_reverse]
    _ ≤ l.length := h1 l

lemma pyStrip_decompose (l : List Char) :
    ∃ l₁ l₂, l = l₁ ++ pyStrip l ++ l₂ := by
  obtain ⟨t1, ht1⟩ : ∃ t1, t1 ++ l.dropWhile isPySpace = l :=
    List.dropWhile_suffix isPySpace
  obtain ⟨t2, ht2⟩ : ∃ t2, t2 ++ (l.dropWhile isPySpace).reverse.dropWhile isPySpace =
      (l.dropWhile isPySpace).reverse := List.dropWhile_suffix isPySpace
  refine ⟨t1, t2.reverse, ?_⟩
  have h4 := congrArg List.reverse ht2
  rw [List.reverse_append, List.reverse_reverse] at h4
  have hkey : l.dropWhile isPySpace = pyStrip l ++ t2.reverse := by
    show l.dropWhile isPySpace =
      ((l.dropWhile isPySpace).reverse.dropWhile isPySpace).reverse ++ t2.reverse
    exact h4.symm
  calc l = t1 ++ l.dropWhile isPySpace := ht1.symm
    _ = t1 ++ (pyStrip l ++ t2.reverse) := by rw [hkey]
    _ = t1 ++ pyStrip l ++ t2.reverse := (List.append_assoc t1 (pyStrip l) t2.reverse).symm

lemma pyStrip_head?_not_space {l : List Char} :
    ∀ c, (pyStrip l).head? = some c → isPySpace c = false := by
  intro c hc
  unfold pyStrip at hc
  rw [List.head?_reverse] at hc
  have hne : (l.dropWhile isPySpace).reverse.dropWhile isPySpace ≠ [] := by
    intro h0
    rw [h0] at hc
    simp at hc
  obtain ⟨t2, ht2⟩ : ∃ t2, t2 ++ (l.dropWhile isPySpace).reverse.dropWhile isPySpace =
      (l.dropWhile isPySpace).reverse := List.dropWhile_suffix isPySpace
  have hlast : (l.dropWhile isPySpace).reverse.getLast? = some c := by
    rw [← ht2, List.getLast?_append, hc]
    rfl
  rw [List.getLast?_reverse] at hlast
  have hdne : l.dropWhile isPySpace ≠ [] := by
    intro h0
    rw [h0] at hlast
    simp at hlast
  have hhead := List.head_dropWhile_not isPySpace l hdne
  have heq : (l.dropWhile isPySpace).head hdne = c :=
    (List.head_eq_iff_head?_eq_some hdne).mpr hlast
  rwa [heq] at hhead

lemma pyStrip_getLast?_not_space {l : List Char} :
    ∀ c, (pyStrip l).getLast? = some c → isPySpace c = false := by
  intro c hc
  unfold pyStrip at hc
  rw [List.getLast?_reverse] at hc
  have hne : (l.dropWhile isPySpace).reverse.dropWhile isPySpace ≠ [] := by
    intro h0
    rw [h0] at hc
    simp at hc
  have hhead := List.head_dropWhile_not isPySpace (l.dropWhile isPySpace).reverse hne
  have heq : ((l.dropWhile isPySpace).reverse.dropWhile isPySpace).head hne = c :=
    (List.head_eq_iff_head?_eq_some hne).mpr hc
  rwa [heq] at hhead

/-! ### Claim theorems: normalizer and chunker basics -/

/-! ### Offsets: the spec's while-loop enumeration versus CPython's range -/

lemma offsetsWhile_stop {len s1 off : Nat} (h : ¬ off < len) :
    offsetsWhile len s1 off = [] := by
  rw [offsetsWhile, if_neg h]

lemma offsetsWhile_step {len s1 off : Nat} (h : off < len) :
    offsetsWhile len s1 off = off :: offsetsWhile len s1 (off + s1 + 1) := by
  rw [offsetsWhile, if_pos h]

lemma offsetsWhile_closed (len s1 : Nat) : ∀ (fuel off : Nat), len - off ≤ fuel →
    offsetsWhile len s1 off =
      (List.range ((len - off + s1) / (s1 + 1))).map (fun k => off + k * (s1 + 1)) := by
  intro fuel
  induction fuel with
  | zero =>
    intro off h
    rw [offsetsWhile_stop (by omega), show len - off = 0 by omega, Nat.zero_add,
      Nat.div_eq_of_lt (by omega), List.range_zero, List.map_nil]
  | succ m ih =>
    intro off h
    by_cases hoff : off < len
    · rw [offsetsWhile_step hoff, ih (off + s1 + 1) (by omega)]
      have hm : (len - off + s1) / (s1 + 1) = (len - (off + s1 + 1) + s1) / (s1 + 1) + 1 := by
        rcases le_or_lt (off + s1 + 1) len with hA | hB
        · rw [show len - off + s1 = (len - (off + s1 + 1) + s1) + (s1 + 1) by omega,
            Nat.add_div_right _ (by omega)]
        · rw [show len - (off + s1 + 1) = 0 by omega,
            show len - off + s1 = (len - off - 1) + (s1 + 1) by omega,
            Nat.add_div_right _ (by omega),
            Nat.div_eq_of_lt (by omega), Nat.div_eq_of_lt (by omega)]
      rw [hm, List.range_succ_eq_map, List.map_cons, List.map_map]
      congr 1
      · omega
      · apply List.map_congr_left
        intro k _
        simp only [Function.comp_apply, Nat.succ_eq_add_one]
        ring
    · rw [offsetsWhile_stop hoff, show len - off = 0 by omega, Nat.zero_add,
        Nat.div_eq_of_lt (by omega), List.range_zero, List.map_nil]

lemma offsetsWhile_eq (len s1 off : Nat) :
    offsetsWhile len s1 off =
      (List.range ((len - off + s1) / (s1 + 1))).map (fun k => off + k * (s1 + 1)) :=
  offsetsWhile_closed len s1 (len - off) off le_rfl

lemma rangeStep_eq_offsetsWhile (n step : Nat) (h : 0 < step) :
    rangeStep n step = offsetsWhile n (step - 1) 0 := by
  rw [offsetsWhile_eq]
  unfold rangeStep
  rw [show step - 1 + 1 = step by omega,
    show (n - 0 + (step - 1)) = n + step - 1 by omega]
  apply List.map_congr_left
  intro k _
  omega

lemma mem_rangeStep {n step x : Nat} (h : 0 < step) :
    x ∈ rangeStep n step ↔ ∃ k, x = k * step ∧ x < n := by
  unfold rangeStep
  rw [List.mem_map]
  constructor
  · rintro ⟨k, hk, rfl⟩
    rw [List.mem_range] at hk
    refine ⟨k, rfl, ?_⟩
    have h3 : (k + 1) * step ≤ n + step - 1 := (Nat.le_div_iff_mul_le h).mp hk
    rw [Nat.succ_mul] at h3
    omega
  · rintro ⟨k, rfl, hlt⟩
    refine ⟨k, ?_, rfl⟩
    rw [List.mem_range]
    have h3 : (k + 1) * step ≤ n + step - 1 := by
      rw [Nat.succ_mul]
      omega
    exact (Nat.le_div_iff_mul_le h).mpr h3

lemma chain'_lt_offsetsWhile (len s1 off : Nat) :
    (offsetsWhile len s1 off).Chain' (· < ·) := by
  rw [offsetsWhile_eq]
  refine List.Pairwise.chain' ?_
  refine List.Pairwise.map _ ?_ (List.pairwise_lt_range _)
  intro a b hab
  have : a * (s1 + 1) < b * (s1 + 1) := by
    exact Nat.mul_lt_mul_of_lt_of_le hab le_rfl (by omega)
  omega

lemma pySlice_nonneg (s : List Char) (st : Nat) (S : Int) (hS : 0 ≤ S) :
    pySlice s (st : Int) ((st : Int) + S) = (s.drop st).take S.toNat := by
  unfold pySlice
  simp only
  rw [if_neg (by omega : ¬ ((st : Int) < 0)), if_neg (by omega : ¬ ((st : Int) + S < 0))]
  rcases le_or_lt st s.length with hst | hst
  · rw [show (min (st : Int) (s.length : Int)).toNat = st by omega,
      show (min ((st : Int) + S) (s.length : Int)).toNat = min (st + S.toNat) s.length by omega,
      List.drop_take]
    apply List.take_eq_take.mpr
    rw [List.length_drop]
    omega
  · rw [show (min (st : Int) (s.length : Int)).toNat = s.length by omega]
    rw [List.drop_eq_nil_of_le (by rw [List.length_take]; omega),
      List.drop_eq_nil_of_le (by omega), List.take_nil]

/-- C7: `normalize_whitespace` is a pure function whose result has no leading
or trailing whitespace (its first and last characters are non-whitespace), the
only whitespace characters it contains are single ASCII spaces (no two
adjacent whitespace characters), the maximal non-whitespace runs of the input
are preserved verbatim, and it is idempotent. -/
theorem C7_normalize_whitespace_contract (t : List Char) :
    (∀ c, (normalize_whitespace t).head? = some c → isPySpace c = false) ∧
    (∀ c, (normalize_whitespace t).getLast? = some c → isPySpace c = false) ∧
    (∀ c ∈ normalize_whitespace t, isPySpace c = true → c = ' ') ∧
    (normalize_whitespace t).Chain'
      (fun a b => isPySpace a = false ∨ isPySpace b = false) ∧
    pySplitWs (normalize_whitespace t) = pySplitWs t ∧
    normalize_whitespace (normalize_whitespace t) = normalize_whitespace t := by
  refine ⟨joinWords_head?_not_space pySplitWs_words,
    joinWords_getLast?_not_space pySplitWs_words, ?_,
    chain'_joinWords pySplitWs_words,
    pySplitWs_normalize t, normalize_whitespace_idem t⟩
  intro c hc hsp
  rcases mem_joinWords hc with ⟨w, hw, hcw⟩ | h
  · have := (pySplitWs_words w hw).2 c hcw
    rw [this] at hsp
    cases hsp
  · exact h

/-- C2: `split_fixed_overlap` raises the invalid-configuration error exactly
when `O ≥ S`, for every input text — including the empty text, since the check
comes before any processing. -/
theorem C2_invalid_configuration_iff (T : List Char) (S O : Int) :
    split_fixed_overlap T S O = .error invalidConfigMsg ↔ S ≤ O := by
  rcases le_or_lt S O with h | h
  · simp [split_fixed_overlap, ge_iff_le, h]
  · have h' : ¬ O ≥ S := not_le.mpr h
    rw [split_fixed_overlap, if_neg h']
    constructor
    · intro hc
      by_cases ht : normalize_whitespace T = []
      · rw [if_pos ht] at hc
        exact absurd hc (by simp)
      · rw [if_neg ht] at hc
        exact absurd hc (by simp)
    · intro hc
      omega

/-- C3: with a valid configuration `O < S`, an input text that is empty or
all-whitespace yields the empty chunk list, not an error. -/
theorem C3_empty_text_ok (T : List Char) (S O : Int) (hSO : O < S)
    (hws : ∀ c ∈ T, isPySpace c = true) :
    split_fixed_overlap T S O = .ok [] := by
  have h' : ¬ O ≥ S := not_le.mpr hSO
  have ht : normalize_whitespace T = [] := normalize_eq_nil_iff.mpr hws
  rw [split_fixed_overlap, if_neg h']
  simp [ht]

/-- Witness for C3 at `T = " \t\n "`, `S = 3`, `O = -1`. -/
theorem C3_empty_text_ok_witness :
    ((-1 : Int) < 3) ∧ (∀ c ∈ " \t\n ".data, isPySpace c = true) ∧
    split_fixed_overlap " \t\n ".data 3 (-1) = .ok [] :=
  ⟨by decide, by decide, C3_empty_text_ok " \t\n ".data 3 (-1) (by decide) (by decide)⟩

/-- C1 (amended: `0 ≤ S`): for `O < S`, `split_fixed_overlap` computes exactly
what the spec's sentence describes — normalize, step `S - O`, starting offsets
`0, step, 2*step, …` while below the normalized length (enumerated by the
while-loop `offsetsWhile`, in strictly increasing order), substring of up to
`S` characters at each offset, trimmed, dropped when it trims to empty. -/
theorem C1_split_matches_spec_description (T : List Char) (S O : Int)
    (hO : O < S) (hS : 0 ≤ S) :
    split_fixed_overlap T S O = split_fixed_overlap_spec T S O ∧
    (offsetsWhile (normalize_whitespace T).length ((S - O).toNat - 1) 0).Chain' (· < ·) := by
  refine ⟨?_, chain'_lt_offsetsWhile _ _ _⟩
  have h' : ¬ O ≥ S := not_le.mpr hO
  simp only [split_fixed_overlap, split_fixed_overlap_spec, if_neg h', if_pos hO]
  by_cases ht : normalize_whitespace T = []
  · rw [if_pos ht, ht]
    rw [offsetsWhile_stop (by simp)]
    rfl
  · rw [if_neg ht]
    rw [← rangeStep_eq_offsetsWhile _ _ (by omega : 0 < (S - O).toNat)]
    congr 1
    congr 1
    apply List.map_congr_left
    intro st _
    rw [pySlice_nonneg _ _ _ hS]

/-- Witness for C1 at `T = "abcdefghij"`, `S = 4`, `O = 1`. -/
theorem C1_split_matches_spec_description_witness :
    ((1 : Int) < 4) ∧ ((0 : Int) ≤ 4) ∧
    (split_fixed_overlap "abcdefghij".data 4 1 =
        split_fixed_overlap_spec "abcdefghij".data 4 1 ∧
      (offsetsWhile (normalize_whitespace "abcdefghij".data).length
        (((4 : Int) - 1).toNat - 1) 0).Chain' (· < ·)) :=
  ⟨by decide, by decide,
    C1_split_matches_spec_description "abcdefghij".data 4 1 (by decide) (by decide)⟩

/-- Counterexample to C1 as stated: at `T = "abcdefghij"`, `S = -3`, `O = -5`
we have `O < S`, yet the code's chunks are not "substrings of up to `S`
characters": Python's negative-stop slicing makes `text[0:-3] = "abcdefg"`,
while a substring of up to `-3 ≤ 0` characters can only be empty, so the
spec-described result (the empty list) differs from the code's. -/
theorem C1_counterexample :
    ((-5 : Int) < -3) ∧
    split_fixed_overlap "abcdefghij".data (-3) (-5) =
      .ok ["abcdefg".data, "cdefghi".data] ∧
    split_fixed_overlap_spec "abcdefghij".data (-3) (-5) = .ok [] ∧
    split_fixed_overlap "abcdefghij".data (-3) (-5) ≠
      split_fixed_overlap_spec "abcdefghij".data (-3) (-5) := by
  have h1 : split_fixed_overlap_spec "abcdefghij".data (-3) (-5) = .ok [] := by
    simp only [split_fixed_overlap_spec, offsetsWhile_eq]
    decide
  have h2 : split_fixed_overlap "abcdefghij".data (-3) (-5) =
      .ok ["abcdefg".data, "cdefghi".data] := by decide
  refine ⟨by decide, h2, h1, ?_⟩
  rw [h1, h2]
  simp

/-- C4 (amended: `0 ≤ O`): with `0 ≤ O < S` and no window trimming to empty,
every enumerated window becomes a produced chunk and the windows
`[st, st + S)` jointly cover every character position of the normalized
text. -/
theorem C4_window_coverage (T : List Char) (S O : Int) (hO : O < S) (hOnn : 0 ≤ O)
    (hkeep : ∀ st ∈ rangeStep (normalize_whitespace T).length (S - O).toNat,
      pyStrip (pySlice (normalize_whitespace T) st ((st : Nat) + S)) ≠ []) :
    split_fixed_overlap T S O =
      .ok ((rangeStep (normalize_whitespace T).length (S - O).toNat).map
        (fun st : Nat => pyStrip (pySlice (normalize_whitespace T) st (st + S)))) ∧
    ∀ i < (normalize_whitespace T).length,
      ∃ st ∈ rangeStep (normalize_whitespace T).length (S - O).toNat,
        st ≤ i ∧ (i : Int) < (st : Int) + S := by
  have h' : ¬ O ≥ S := not_le.mpr hO
  have hstep : 0 < (S - O).toNat := by omega
  constructor
  · simp only [split_fixed_overlap, if_neg h']
    by_cases ht : normalize_whitespace T = []
    · rw [if_pos ht, ht]
      rw [show rangeStep (List.length ([] : List Char)) (S - O).toNat = [] by
        simp [rangeStep, Nat.div_eq_of_lt (by omega : (S - O).toNat - 1 < (S - O).toNat)]]
      rfl
    · rw [if_neg ht]
      congr 1
      apply List.filter_eq_self.mpr
      intro a ha
      rw [List.mem_map] at ha
      obtain ⟨st, hst, rfl⟩ := ha
      simpa using hkeep st hst
  · intro i hi
    set n := (normalize_whitespace T).length with hn
    set step := (S - O).toNat with hstepdef
    refine ⟨(i / step) * step, ?_, Nat.div_mul_le_self i step, ?_⟩
    · rw [mem_rangeStep hstep]
      exact ⟨i / step, rfl, lt_of_le_of_lt (Nat.div_mul_le_self i step) hi⟩
    · have hmod := Nat.div_add_mod i step
      have hmlt : i % step < step := Nat.mod_lt i hstep
      have hcomm : i / step * step = step * (i / step) := Nat.mul_comm _ _
      have h1 : i < i / step * step + step := by omega
      have h2 : (i : Int) < ((i / step * step : Nat) : Int) + (step : Int) := by
        exact_mod_cast h1
      have hcast : ((step : Int)) = S - O := by
        rw [hstepdef]
        omega
      rw [hcast] at h2
      omega

/-- Witness for C4 at `T = "abcdefghij"`, `S = 4`, `O = 1`. -/
theorem C4_window_coverage_witness :
    ((1 : Int) < 4) ∧ ((0 : Int) ≤ 1) ∧
    (∀ st ∈ rangeStep (normalize_whitespace "abcdefghij".data).length ((4 : Int) - 1).toNat,
      pyStrip (pySlice (normalize_whitespace "abcdefghij".data)
        st ((st : Nat) + (4 : Int))) ≠ []) ∧
    (split_fixed_overlap "abcdefghij".data 4 1 =
      .ok ((rangeStep (normalize_whitespace "abcdefghij".data).length ((4 : Int) - 1).toNat).map
        (fun st : Nat => pyStrip (pySlice (normalize_whitespace "abcdefghij".data)
          st (st + (4 : Int))))) ∧
    ∀ i < (normalize_whitespace "abcdefghij".data).length,
      ∃ st ∈ rangeStep (normalize_whitespace "abcdefghij".data).length ((4 : Int) - 1).toNat,
        st ≤ i ∧ (i : Int) < (st : Int) + 4) :=
  ⟨by decide, by decide, by decide,
    C4_window_coverage "abcdefghij".data 4 1 (by decide) (by decide) (by decide)⟩

/-- Counterexample to C4 as stated: at `T = "abcdefghij"`, `S = 2`, `O = -5`
we have `O < S` and no window trims to empty (windows "ab" at 0 and "hi" at
7), yet position 2 of the normalized text is covered by no window span. -/
theorem C4_counterexample :
    ((-5 : Int) < 2) ∧
    (∀ st ∈ rangeStep (normalize_whitespace "abcdefghij".data).length ((2 : Int) - (-5)).toNat,
      pyStrip (pySlice (normalize_whitespace "abcdefghij".data)
        st ((st : Nat) + (2 : Int))) ≠ []) ∧
    ¬ (∀ i < (normalize_whitespace "abcdefghij".data).length,
        ∃ st ∈ rangeStep (normalize_whitespace "abcdefghij".data).length
            ((2 : Int) - (-5)).toNat,
          st ≤ i ∧ (i : Int) < (st : Int) + 2) := by
  refine ⟨by decide, by decide, by decide⟩

/-- C5: on the already-normalized text "abcdefghij" with `S = 4`, `O = 1`, the
chunker steps by 3 through offsets 0, 3, 6, 9 and returns exactly
["abcd", "defg", "ghij", "j"]. -/
theorem C5_concrete_scenario :
    split_fixed_overlap "abcdefghij".data 4 1 =
      .ok ["abcd".data, "defg".data, "ghij".data, "j".data] ∧
    ((4 : Int) - 1).toNat = 3 ∧
    rangeStep (normalize_whitespace "abcdefghij".data).length 3 = [0, 3, 6, 9] :=
  ⟨by decide, by decide, by decide⟩

/-! ### Words-only inputs -/

lemma pySplitWs_of_word {w : List Char} (hne : w ≠ [])
    (hw : ∀ c ∈ w, isPySpace c = false) : pySplitWs w = [w] := by
  have habs : splitWsGo (w ++ []) [] = splitWsGo [] (w.reverse ++ []) :=
    splitWsGo_word hw [] []
  rw [List.append_nil] at habs
  unfold pySplitWs
  rw [habs]
  have hne' : w.reverse ++ [] ≠ [] := by simp [hne]
  simp only [splitWsGo, if_neg hne']
  simp

lemma normalize_of_word {w : List Char} (hne : w ≠ [])
    (hw : ∀ c ∈ w, isPySpace c = false) : normalize_whitespace w = w := by
  unfold normalize_whitespace
  rw [pySplitWs_of_word hne hw]
  rfl

/-! ### C10: invariants of the produced chunks -/

/-- C10 (amended: `1 ≤ S`): every produced chunk is a non-empty string of
length at most `S` with no leading or trailing whitespace, obtained by
trimming a contiguous substring of the normalized text, and a text containing
any non-whitespace character produces at least one chunk. -/
theorem C10_chunk_invariants (T : List Char) (S O : Int) (hO : O < S) (hS : 1 ≤ S) :
    ∃ chunks, split_fixed_overlap T S O = .ok chunks ∧
      (∀ ch ∈ chunks,
        ch ≠ [] ∧ (ch.length : Int) ≤ S ∧
        (∀ c, ch.head? = some c → isPySpace c = false) ∧
        (∀ c, ch.getLast? = some c → isPySpace c = false) ∧
        ∃ w l₁ l₂, normalize_whitespace T = l₁ ++ w ++ l₂ ∧ ch = pyStrip w) ∧
      ((∃ c ∈ T, isPySpace c = false) → chunks ≠ []) := by
  have h' : ¬ O ≥ S := not_le.mpr hO
  by_cases ht : normalize_whitespace T = []
  · refine ⟨[], ?_, by simp, ?_⟩
    · simp only [split_fixed_overlap, if_neg h']
      rw [if_pos ht]
    · rintro ⟨c, hcT, hcns⟩
      have := normalize_eq_nil_iff.mp ht c hcT
      rw [this] at hcns
      exact Bool.noConfusion hcns
  · have hsplit : split_fixed_overlap T S O =
        .ok (((rangeStep (normalize_whitespace T).length (S - O).toNat).map
          (fun st : Nat => pyStrip (pySlice (normalize_whitespace T) st (st + S)))).filter
            (fun c => !c.isEmpty)) := by
      simp only [split_fixed_overlap, if_neg h']
      rw [if_neg ht]
    refine ⟨_, hsplit, ?_, ?_⟩
    · intro ch hch
      rw [List.mem_filter] at hch
      obtain ⟨hmap, hne⟩ := hch
      rw [List.mem_map] at hmap
      obtain ⟨st, hstmem, rfl⟩ := hmap
      have hwin : pySlice (normalize_whitespace T) st ((st : Nat) + S) =
          ((normalize_whitespace T).drop st).take S.toNat :=
        pySlice_nonneg (normalize_whitespace T) st S (by omega)
      refine ⟨by simpa using hne, ?_, pyStrip_head?_not_space, pyStrip_getLast?_not_space, ?_⟩
      · rw [hwin]
        have h1 := pyStrip_length_le (((normalize_whitespace T).drop st).take S.toNat)
        have h2 : (((normalize_whitespace T).drop st).take S.toNat).length ≤ S.toNat := by
          rw [List.length_take]
          omega
        omega
      · refine ⟨pySlice (normalize_whitespace T) st ((st : Nat) + S),
          (normalize_whitespace T).take st,
          ((normalize_whitespace T).drop st).drop S.toNat, ?_, rfl⟩
        rw [hwin, List.append_assoc, List.take_append_drop, List.take_append_drop]
    · intro _
      have hlen : 0 < (normalize_whitespace T).length := List.length_pos.mpr ht
      have h0mem : 0 ∈ rangeStep (normalize_whitespace T).length (S - O).toNat := by
        rw [mem_rangeStep (by omega : 0 < (S - O).toNat)]
        exact ⟨0, by simp, hlen⟩
      obtain ⟨h, rest, hcons⟩ := List.exists_cons_of_ne_nil ht
      have hh : isPySpace h = false := by
        have hhead : (normalize_whitespace T).head? = some h := by
          rw [hcons]
          rfl
        exact @joinWords_head?_not_space (pySplitWs T) (@pySplitWs_words T) h hhead
      have hwin0 : pySlice (normalize_whitespace T) (0 : Nat) ((0 : Nat) + S) =
          (normalize_whitespace T).take S.toNat := by
        rw [pySlice_nonneg (normalize_whitespace T) 0 S (by omega), List.drop_zero]
      obtain ⟨m, hm⟩ : ∃ m, S.toNat = m + 1 := ⟨S.toNat - 1, by omega⟩
      have hstrip0 : pyStrip (pySlice (normalize_whitespace T) (0 : Nat) ((0 : Nat) + S)) ≠ [] := by
        rw [hwin0, hcons, hm, List.take_succ_cons]
        intro hnil
        have := pyStrip_eq_nil_iff.mp hnil h (by simp)
        rw [hh] at this
        exact Bool.noConfusion this
      apply List.ne_nil_of_mem
        (a := pyStrip (pySlice (normalize_whitespace T) (0 : Nat) ((0 : Nat) + S)))
      rw [List.mem_filter]
      refine ⟨List.mem_map.mpr ⟨0, h0mem, rfl⟩, by simpa using hstrip0⟩

/-- Witness for C10 at `T = "a b"`, `S = 2`, `O = 0`. -/
theorem C10_chunk_invariants_witness :
    ((0 : Int) < 2) ∧ ((1 : Int) ≤ 2) ∧
    (∃ chunks, split_fixed_overlap "a b".data 2 0 = .ok chunks ∧
      (∀ ch ∈ chunks,
        ch ≠ [] ∧ (ch.length : Int) ≤ 2 ∧
        (∀ c, ch.head? = some c → isPySpace c = false) ∧
        (∀ c, ch.getLast? = some c → isPySpace c = false) ∧
        ∃ w l₁ l₂, normalize_whitespace "a b".data = l₁ ++ w ++ l₂ ∧ ch = pyStrip w) ∧
      ((∃ c ∈ "a b".data, isPySpace c = false) → chunks ≠ [])) :=
  ⟨by decide, by decide, C10_chunk_invariants "a b".data 2 0 (by decide) (by decide)⟩

/-- Counterexample to C10 as stated: at `T = "a"`, `S = 0`, `O = -1` we have
`O < S` and the text contains a non-whitespace character, yet the chunker
returns zero chunks — the window at offset 0 spans 0 characters, trims to
empty and is dropped. -/
theorem C10_counterexample :
    ((-1 : Int) < 0) ∧ (∃ c ∈ "a".data, isPySpace c = false) ∧
    split_fixed_overlap "a".data 0 (-1) = .ok [] :=
  ⟨by decide, by decide, by decide⟩

/-! ### C6: the default parameters on a normalized text of length 1500 -/

lemma isEmpty_false_of_ne_nil {l : List Char} (h : l ≠ []) : l.isEmpty = false := by
  cases l with
  | nil => exact absurd rfl h
  | cons a t => rfl

lemma pySlice_win0 (t : List Char) :
    pySlice t (0 : Nat) ((0 : Nat) + CHUNK_SIZE) = t.take 1000 := by
  rw [pySlice_nonneg t 0 CHUNK_SIZE (by decide), List.drop_zero,
    show CHUNK_SIZE.toNat = 1000 from rfl]

lemma pySlice_win800 (t : List Char) (hlen : t.length = 1500) :
    pySlice t (800 : Nat) ((800 : Nat) + CHUNK_SIZE) = t.drop 800 := by
  rw [pySlice_nonneg t 800 CHUNK_SIZE (by decide),
    show CHUNK_SIZE.toNat = 1000 from rfl]
  apply List.take_of_length_le
  rw [List.length_drop, hlen]
  omega

lemma rangeStep_1500_800 : rangeStep 1500 800 = [0, 800] := by decide

lemma replicate_ne_nil' (n : Nat) (c : Char) (h : 0 < n) : List.replicate n c ≠ [] := by
  intro h0
  have := congrArg List.length h0
  rw [List.length_replicate, List.length_nil] at this
  omega

lemma splitWsGo_space_cons {c : Char} (hc : isPySpace c = true) (l acc : List Char)
    (hacc : acc ≠ []) : splitWsGo (c :: l) acc = acc.reverse :: splitWsGo l [] := by
  simp [splitWsGo, hc, hacc]

/-- Shared computation: with the default parameters, a normalized text of
length 1500 splits into exactly the two trimmed windows at offsets 0 and
800. -/
lemma split_defaults_1500 (t : List Char) (hnorm : normalize_whitespace t = t)
    (hlen : t.length = 1500) :
    split_fixed_overlap t CHUNK_SIZE CHUNK_OVERLAP =
      .ok [pyStrip (t.take 1000), pyStrip (t.drop 800)] ∧
    pyStrip (t.take 1000) ≠ [] ∧ pyStrip (t.drop 800) ≠ [] ∧
    (pyStrip (t.drop 800)).length ≤ 700 := by
  have hjoin : joinWords (pySplitWs t) = t := hnorm
  have htne : t ≠ [] := by
    intro h0
    rw [h0] at hlen
    simp at hlen
  obtain ⟨h, rest, hcons⟩ := List.exists_cons_of_ne_nil htne
  have hh : isPySpace h = false := by
    have hhead : (joinWords (pySplitWs t)).head? = some h := by
      rw [hjoin, hcons]
      rfl
    exact @joinWords_head?_not_space (pySplitWs t) (@pySplitWs_words t) h hhead
  have hchain : t.Chain' (fun a b => isPySpace a = false ∨ isPySpace b = false) :=
    hjoin ▸ chain'_joinWords (@pySplitWs_words t)
  have h' : ¬ CHUNK_OVERLAP ≥ CHUNK_SIZE := by decide
  have hsplit1 : split_fixed_overlap t CHUNK_SIZE CHUNK_OVERLAP =
      .ok (((rangeStep t.length (CHUNK_SIZE - CHUNK_OVERLAP).toNat).map
        (fun st : Nat => pyStrip (pySlice t st (st + CHUNK_SIZE)))).filter
          (fun c => !c.isEmpty)) := by
    simp only [split_fixed_overlap, if_neg h', hnorm]
    rw [if_neg htne]
  have hrange : rangeStep t.length (CHUNK_SIZE - CHUNK_OVERLAP).toNat = [0, 800] := by
    rw [hlen, show (CHUNK_SIZE - CHUNK_OVERLAP).toNat = 800 from rfl]
    exact rangeStep_1500_800
  have hc1 : pyStrip (t.take 1000) ≠ [] := by
    rw [hcons, show (1000 : Nat) = 999 + 1 from rfl, List.take_succ_cons]
    intro hnil
    have := pyStrip_eq_nil_iff.mp hnil h (by simp)
    rw [hh] at this
    exact Bool.noConfusion this
  have hlen8 : (t.drop 800).length = 700 := by
    rw [List.length_drop, hlen]
  have hc2 : pyStrip (t.drop 800) ≠ [] := by
    have hchain8 : (t.drop 800).Chain' (fun a b => isPySpace a = false ∨ isPySpace b = false) :=
      List.Chain'.infix hchain (List.IsSuffix.isInfix (List.drop_suffix 800 t))
    obtain ⟨a, u1, ha⟩ := List.exists_cons_of_ne_nil
      (show t.drop 800 ≠ [] by
        intro h0
        rw [h0] at hlen8
        simp at hlen8)
    obtain ⟨b, u2, hb⟩ := List.exists_cons_of_ne_nil
      (show u1 ≠ [] by
        intro h0
        rw [ha, h0] at hlen8
        simp at hlen8)
    rw [ha, hb]
    rw [ha, hb, List.chain'_cons] at hchain8
    intro hnil
    have hall := pyStrip_eq_nil_iff.mp hnil
    rcases hchain8.1 with hx | hx
    · have := hall a (by simp)
      rw [this] at hx
      exact Bool.noConfusion hx
    · have := hall b (by simp)
      rw [this] at hx
      exact Bool.noConfusion hx
  have hlc2 : (pyStrip (t.drop 800)).length ≤ 700 := by
    have := pyStrip_length_le (t.drop 800)
    omega
  refine ⟨?_, hc1, hc2, hlc2⟩
  rw [hsplit1, hrange]
  simp only [List.map_cons, List.map_nil]
  rw [pySlice_win0 t, pySlice_win800 t hlen]
  simp [List.filter_cons, isEmpty_false_of_ne_nil hc1, isEmpty_false_of_ne_nil hc2]

/-- C6 (amended: the second chunk has length at most 700, not exactly 700 —
trimming can remove a leading space sitting at offset 800): for every
normalized input text of length exactly 1500, the default parameters give
step 800, exactly two chunks, the trimmed windows at starting offsets 0 and
800. -/
theorem C6_default_params (t : List Char) (hnorm : normalize_whitespace t = t)
    (hlen : t.length = 1500) :
    (CHUNK_SIZE - CHUNK_OVERLAP).toNat = 800 ∧
    rangeStep t.length (CHUNK_SIZE - CHUNK_OVERLAP).toNat = [0, 800] ∧
    ∃ c1 c2, split_fixed_overlap t CHUNK_SIZE CHUNK_OVERLAP = .ok [c1, c2] ∧
      c1 = pyStrip (pySlice t (0 : Nat) ((0 : Nat) + CHUNK_SIZE)) ∧
      c2 = pyStrip (pySlice t (800 : Nat) ((800 : Nat) + CHUNK_SIZE)) ∧
      c2.length ≤ 700 := by
  obtain ⟨hsplit, _, _, hlc2⟩ := split_defaults_1500 t hnorm hlen
  refine ⟨rfl, ?_, pyStrip (t.take 1000), pyStrip (t.drop 800), hsplit, ?_, ?_, hlc2⟩
  · rw [hlen, show (CHUNK_SIZE - CHUNK_OVERLAP).toNat = 800 from rfl]
    exact rangeStep_1500_800
  · rw [pySlice_win0 t]
  · rw [pySlice_win800 t hlen]

/-- Witness for C6 at `t = 1500 copies of 'a'`. -/
theorem C6_default_params_witness :
    normalize_whitespace (List.replicate 1500 'a') = List.replicate 1500 'a' ∧
    (List.replicate 1500 'a').length = 1500 ∧
    ((CHUNK_SIZE - CHUNK_OVERLAP).toNat = 800 ∧
      rangeStep (List.replicate 1500 'a').length (CHUNK_SIZE - CHUNK_OVERLAP).toNat =
        [0, 800] ∧
      ∃ c1 c2, split_fixed_overlap (List.replicate 1500 'a') CHUNK_SIZE CHUNK_OVERLAP =
          .ok [c1, c2] ∧
        c1 = pyStrip (pySlice (List.replicate 1500 'a') (0 : Nat) ((0 : Nat) + CHUNK_SIZE)) ∧
        c2 = pyStrip (pySlice (List.replicate 1500 'a') (800 : Nat)
          ((800 : Nat) + CHUNK_SIZE)) ∧
        c2.length ≤ 700) := by
  have h1 : normalize_whitespace (List.replicate 1500 'a') = List.replicate 1500 'a' :=
    normalize_of_word (replicate_ne_nil' 1500 'a' (by omega))
      (fun c hc => by rw [List.eq_of_mem_replicate hc]; decide)
  have h2 : (List.replicate 1500 'a').length = 1500 := List.length_replicate 1500 'a'
  exact ⟨h1, h2, C6_default_params (List.replicate 1500 'a') h1 h2⟩

/-- The text refuting C6's "second chunk has length exactly 700": normalized,
length 1500, with a space at position 800. -/
def cexText : List Char := List.replicate 800 'a' ++ ' ' :: List.replicate 699 'b'

/-- Counterexample to C6 as stated: `cexText` is normalized of length 1500,
but the chunk at offset 800 trims its leading space and has length 699, not
700. -/
theorem C6_counterexample :
    normalize_whitespace cexText = cexText ∧
    cexText.length = 1500 ∧
    ∃ c1 c2, split_fixed_overlap cexText CHUNK_SIZE CHUNK_OVERLAP = .ok [c1, c2] ∧
      c2 = List.replicate 699 'b' ∧ c2.length ≠ 700 := by
  have hw1 : ∀ c ∈ List.replicate 800 'a', isPySpace c = false :=
    fun c hc => by rw [List.eq_of_mem_replicate hc]; decide
  have hw2 : ∀ c ∈ List.replicate 699 'b', isPySpace c = false :=
    fun c hc => by rw [List.eq_of_mem_replicate hc]; decide
  have hsplitws : pySplitWs cexText = [List.replicate 800 'a', List.replicate 699 'b'] := by
    unfold cexText pySplitWs
    rw [splitWsGo_word hw1]
    have hne : (List.replicate 800 'a').reverse ++ [] ≠ [] := by
      rw [List.append_nil]
      intro h0
      rw [List.reverse_eq_nil_iff] at h0
      exact replicate_ne_nil' 800 'a' (by omega) h0
    rw [splitWsGo_space_cons (by decide) _ _ hne]
    rw [show splitWsGo (List.replicate 699 'b') [] = pySplitWs (List.replicate 699 'b') from rfl,
      pySplitWs_of_word (replicate_ne_nil' 699 'b' (by omega)) hw2]
    rw [List.append_nil, List.reverse_reverse]
  have hnorm : normalize_whitespace cexText = cexText := by
    unfold normalize_whitespace
    rw [hsplitws, joinWords_cons₂]
    rfl
  have hlen : cexText.length = 1500 := by
    unfold cexText
    rw [List.length_append, List.length_cons, List.length_replicate, List.length_replicate]
  obtain ⟨hsplit, hc1, hc2, hlc2⟩ := split_defaults_1500 cexText hnorm hlen
  have hdrop : cexText.drop 800 = ' ' :: List.replicate 699 'b' := by
    unfold cexText
    exact List.drop_left' (List.length_replicate 800 'a')
  have hbhead : ∀ c, (List.replicate 699 'b').head? = some c → isPySpace c = false := by
    intro c hc
    rw [show (699 : Nat) = 698 + 1 from rfl, List.replicate_succ] at hc
    simp only [List.head?_cons, Option.some_inj] at hc
    rw [← hc]
    decide
  have hb : List.dropWhile isPySpace (List.replicate 699 'b') = List.replicate 699 'b' :=
    dropWhile_eq_self_of_head? hbhead
  have hstrip : pyStrip (' ' :: List.replicate 699 'b') = List.replicate 699 'b' := by
    unfold pyStrip
    rw [show List.dropWhile isPySpace (' ' :: List.replicate 699 'b') =
        List.dropWhile isPySpace (List.replicate 699 'b') by
      rw [List.dropWhile_cons, if_pos (by decide : isPySpace ' ' = true)]]
    rw [hb, List.reverse_replicate, hb, List.reverse_replicate]
  refine ⟨hnorm, hlen, pyStrip (cexText.take 1000), List.replicate 699 'b', ?_, rfl, ?_⟩
  · rw [hsplit, hdrop, hstrip]
  · rw [List.length_replicate]
    decide

/-! ### C8: the persister's length check -/

/-- C8: `insert_chunks` reports the length-mismatch error exactly when the
chunk and embedding sequences differ in length, and in that case it returns
the store untouched — no connection is opened and no row is written. -/
theorem C8_insert_chunks_length_check {α : Type} (filename : List Char)
    (chunks : List (List Char)) (embeddings : List α) (mkId : Nat → Nat) (now : Nat)
    (st : Store α) :
    ((insert_chunks filename chunks embeddings mkId now st).2.isSome ↔
      chunks.length ≠ embeddings.length) ∧
    (chunks.length ≠ embeddings.length →
      (insert_chunks filename chunks embeddings mkId now st).1 = st) := by
  unfold insert_chunks
  by_cases h : chunks.length = embeddings.length <;> simp [h]

/-- Witness for C8 at a mismatched pair (one chunk, zero embeddings). -/
theorem C8_insert_chunks_length_check_witness :
    (((insert_chunks "f".data [['a']] ([] : List Nat) (fun i => i) 0
        ⟨[], 0⟩).2.isSome ↔ ([['a']] : List (List Char)).length ≠ ([] : List Nat).length) ∧
      (([['a']] : List (List Char)).length ≠ ([] : List Nat).length →
        (insert_chunks "f".data [['a']] ([] : List Nat) (fun i => i) 0 ⟨[], 0⟩).1 =
          ⟨[], 0⟩)) ∧
    (insert_chunks "f".data [['a']] ([] : List Nat) (fun i => i) 0 ⟨[], 0⟩).2 =
      some lengthMismatchMsg ∧
    (insert_chunks "f".data [['a']] ([] : List Nat) (fun i => i) 0 ⟨[], 0⟩).1.rows = [] :=
  ⟨C8_insert_chunks_length_check "f".data [['a']] ([] : List Nat) (fun i => i) 0 ⟨[], 0⟩,
    by decide, by decide⟩

/-! ### C9: unsupported formats are rejected before the pipeline runs -/

/-- C9: `load_text` fails exactly when the lower-cased path ends in neither
".pdf" nor ".docx", and on such a path the whole pipeline stops there: no
chunking, embedding or storage stage runs and the store is untouched. -/
theorem C9_unsupported_format (path pdfText docxText : List Char)
    (apiKey : Bool) (embedder : List Char → List Int) (mkId : Nat → Nat) (now : Nat)
    (st : Store (List Int)) :
    ((∃ e, load_text path pdfText docxText = .error e) ↔
      ¬(((".pdf".data).isSuffixOf (pyLower path) = true) ∨
        ((".docx".data).isSuffixOf (pyLower path) = true))) ∧
    (¬(((".pdf".data).isSuffixOf (pyLower path) = true) ∨
        ((".docx".data).isSuffixOf (pyLower path) = true)) →
      main_model path pdfText docxText apiKey embedder mkId now st =
        ([], st, some unsupportedMsg)) := by
  constructor
  · constructor
    · rintro ⟨e, he⟩ hdisj
      unfold load_text at he
      rcases hdisj with h1 | h1
      · rw [if_pos h1] at he
        exact Except.noConfusion he
      · by_cases h0 : (".pdf".data).isSuffixOf (pyLower path) = true
        · rw [if_pos h0] at he
          exact Except.noConfusion he
        · rw [if_neg h0, if_pos h1] at he
          exact Except.noConfusion he
    · intro hdisj
      refine ⟨unsupportedMsg, ?_⟩
      unfold load_text
      rw [if_neg (fun h1 => hdisj (Or.inl h1)), if_neg (fun h1 => hdisj (Or.inr h1))]
  · intro hdisj
    have hload : load_text path pdfText docxText = .error unsupportedMsg := by
      unfold load_text
      rw [if_neg (fun h1 => hdisj (Or.inl h1)), if_neg (fun h1 => hdisj (Or.inr h1))]
    unfold main_model
    rw [hload]

/-- Witness for C9 at `path = "notes.txt"` (end-to-end scenario 3). -/
theorem C9_unsupported_format_witness :
    ((∃ e, load_text "notes.txt".data "p".data "d".data = .error e) ↔
      ¬(((".pdf".data).isSuffixOf (pyLower "notes.txt".data) = true) ∨
        ((".docx".data).isSuffixOf (pyLower "notes.txt".data) = true))) ∧
    (¬(((".pdf".data).isSuffixOf (pyLower "notes.txt".data) = true) ∨
        ((".docx".data).isSuffixOf (pyLower "notes.txt".data) = true)) →
      main_model "notes.txt".data "p".data "d".data true (fun _ => [0]) (fun i => i) 0
        ⟨[], 0⟩ = ([], ⟨[], 0⟩, some unsupportedMsg)) :=
  C9_unsupported_format "notes.txt".data "p".data "d".data true (fun _ => [0]) (fun i => i) 0
    ⟨[], 0⟩

end IndexDocs
